import Mathlib

set_option maxRecDepth 20000

/-!
Verification of the CipherPay Anchor confidential-payment ledger core.

The repository ships the TypeScript client, migrations, scripts and tests of a
Solana Anchor program.  Pure helper functions (`computeZeroRoot` from
`migrations/01_init.ts` and `scripts/find_zero_root.ts`, the limb helpers from
`tests/recipientOwnerLimbs.ts`) are embedded directly from their sources.
The on-chain transition handlers (shielded_deposit_atomic, shielded_transfer,
shielded_withdraw) live in the Rust program, which is not part of the source
tree here; they are modelled from the specification, as marked on each
definition.  Byte buffers are lists of naturals, each entry standing for one
u8; 32-byte field elements are 32-element lists.
-/

namespace CipherPay

/-- A byte buffer: one natural number per byte. -/
abbrev Bytes := List Nat

/-- A 32-byte field-element encoding (little-endian in this codebase). -/
abbrev Fe := List Nat

/-- Little-endian serialization of a natural into `k` bytes.  Embeds the
loops `out[i] = Number(x & FF); x = x >> EIGHT` of `toLeBytes32` in
`migrations/01_init.ts` / `scripts/find_zero_root.ts` (with `k = 32`) and of
`bigintToLe16` in `tests/recipientOwnerLimbs.ts` (with `k = 16`). -/
def natToLeBytes : Nat → Nat → List Nat
  | 0, _ => []
  | k + 1, x => (x % 256) :: natToLeBytes k (x / 256)

/-- `toLeBytes32` from `migrations/01_init.ts` and `scripts/find_zero_root.ts`:
serialize a bigint as 32 little-endian bytes. -/
def toLeBytes32 (n : Nat) : Fe := natToLeBytes 32 n

/-- `leBytesToBigint` from `tests/recipientOwnerLimbs.ts` (also
`fromLeBytes32` in `tests/deposit.ts`): little-endian byte list to bigint. -/
def leBytesToBigint : List Nat → Nat
  | [] => 0
  | b :: rest => b + 256 * leBytesToBigint rest

/-- `slice32` from the test helpers: the `i`-th 32-byte window of a buffer. -/
def slice32 (buf : Bytes) (i : Nat) : Bytes := ((buf.drop (32 * i)).take 32)

/-- Little-endian value of a 32-byte field-element slice (how the tests and
the program decode `amount` and friends). -/
def feValLE (b : Bytes) : Nat := leBytesToBigint b

/-- The genesis-root loop of `computeZeroRoot` in `migrations/01_init.ts`:
`let node = 0; for i in 0..depth, node = H2(node, node)`, tail recursively.
`H` abstracts the Poseidon compression pulled from `circomlibjs`. -/
def zeroRootLoop (H : Nat → Nat → Nat) : Nat → Nat → Nat
  | 0, node => node
  | i + 1, node => zeroRootLoop H i (H node node)

/-- `computeZeroRoot` from `migrations/01_init.ts` (also duplicated in
`tests/deposit.ts`): run the self-hash loop from the zero leaf and serialize
the result as 32 little-endian bytes. -/
def computeZeroRoot (H : Nat → Nat → Nat) (depth : Nat) : Fe :=
  toLeBytes32 (zeroRootLoop H depth 0)

/-- The `zeros` recurrence of `computeZeroRoot` in
`scripts/find_zero_root.ts`: `zeros[0] = 0`, `zeros[i] = H2(zeros[i-1],
zeros[i-1])`; the root is `zeros[depth]`. -/
def zerosRec (H : Nat → Nat → Nat) : Nat → Nat
  | 0 => 0
  | i + 1 => H (zerosRec H i) (zerosRec H i)

/-- `computeZeroRoot` from `scripts/find_zero_root.ts`: the final entry of the
`zeros` table, serialized as 32 little-endian bytes. -/
def findZeroRoot (H : Nat → Nat → Nat) (depth : Nat) : Fe :=
  toLeBytes32 (zerosRec H depth)

/-- Merkle tree singleton state: depth, current root, next free leaf index
(spec section 3, persisted layout in section 6). -/
structure TreeState where
  depth : Nat
  currentRoot : Fe
  nextIndex : Nat
deriving DecidableEq

/-- Modelled from the spec: `initialize(depth, genesisRoot)` of
MerkleTreeState (section 4.2) — the on-chain `initialize_tree_state`
instruction invoked by `migrations/01_init.ts` is not in the source tree.
Sets the singleton once: given depth, the genesis root, and a fresh leaf
index of zero. -/
def initTreeState (depth : Nat) (genesisRoot : Fe) : TreeState :=
  { depth := depth, currentRoot := genesisRoot, nextIndex := 0 }

theorem zeroRootLoop_eq_iterate (H : Nat → Nat → Nat) :
    ∀ d n, zeroRootLoop H d n = (fun m => H m m)^[d] n := by
  intro d
  induction d with
  | zero => intro n; rfl
  | succ k ih =>
      intro n
      rw [zeroRootLoop, ih, Function.iterate_succ_apply]

theorem zerosRec_eq_iterate (H : Nat → Nat → Nat) :
    ∀ d, zerosRec H d = (fun m => H m m)^[d] 0 := by
  intro d
  induction d with
  | zero => rfl
  | succ k ih =>
      rw [zerosRec, ih, Function.iterate_succ_apply']

/-! ## Ledger state and replay guard

Modelled from the spec: the on-chain Anchor program (MerkleTreeState,
RootCache, DepositMarker/NullifierRecord accounts and the three transition
handlers of spec sections 3 to 4.7) is not in the source tree — only its
TypeScript callers and tests are.  The model below follows the spec's data
model and the ordered handler algorithms word by word. -/

/-- Modelled from the spec: the error taxonomy of section 7 (the on-chain
`error_code.rs` is not in the source tree; the IDL in
`scripts/find_zero_root.ts` confirms `DepositAlreadyUsed`,
`UnknownMerkleRoot`, `NullifierAlreadyUsed`). -/
inductive CpError where
  | InvalidProof
  | ProofInputBinding
  | StaleRoot
  | UnknownMerkleRoot
  | DepositAlreadyUsed
  | NullifierAlreadyUsed
  | AtomicityViolation
  | CapacityExceeded
deriving DecidableEq

/-- Modelled from the spec: the RootCache account (section 3, 4.3) — bounded
FIFO history of recently superseded roots with fixed capacity. -/
structure RootCache where
  roots : List Fe
  cap : Nat
deriving DecidableEq

/-- Modelled from the spec: `RootCache.push` (section 4.3) — append the new
root, evicting the oldest entries past capacity. -/
def rcPush (c : RootCache) (r : Fe) : RootCache :=
  let l := c.roots ++ [r]
  { roots := if c.cap < l.length then l.drop (l.length - c.cap) else l,
    cap := c.cap }

/-- Modelled from the spec: the whole persistent state a transition handler
can touch — the tree singleton, the root cache, the two kinds of replay
records (a key is recorded exactly when its marker account exists), and the
external token-ledger balances by account id. -/
structure LedgerState where
  tree : TreeState
  rootCache : RootCache
  depositMarkers : List Fe
  nullifiers : List Fe
  balances : Nat → Int

/-- The custody (vault) token account, a fixed PDA (`VAULT_SEED = "vault"`
in the tests). -/
def vaultAccount : Nat := 0

/-- Token-ledger movement of `amt` from `src` to `dst`, pointwise on
balances (the SPL transfer that accompanies a deposit or that the withdraw
handler performs by CPI). -/
def transferBal (bal : Nat → Int) (src dst : Nat) (amt : Nat) : Nat → Int :=
  fun a =>
    bal a - (if a = src then (amt : Int) else 0) + (if a = dst then (amt : Int) else 0)

/-- Commit semantics of an atomic request: a rejected request leaves the
state untouched (spec section 5). -/
def commit (st : LedgerState) : Except CpError LedgerState → LedgerState
  | .ok st2 => st2
  | .error _ => st

/-! ## Proof verifier -/

/-- The three transition kinds fixing public-input arity (spec 4.1). -/
inductive Kind where
  | Deposit
  | Transfer
  | Withdraw
deriving DecidableEq

/-- Public-input count per kind: Deposit 7, Transfer 9, Withdraw 5
(spec section 6; matched by the length assertions in `tests/deposit.ts`,
`tests/transfer.ts` and the withdraw test). -/
def pubArity : Kind → Nat
  | .Deposit => 7
  | .Transfer => 9
  | .Withdraw => 5

/-- The cryptographic pairing check, an imported capability (spec 4.1):
abstract accept/reject oracle over kind, proof bytes and public inputs. -/
abbrev CryptoVerify := Kind → Bytes → Bytes → Bool

/-- The three Groth16 sub-components of a 256-byte proof blob: bytes
0..64, 64..192, 192..256 (the `subarray` sanity checks in the tests). -/
def splitProof (p : Bytes) : Bytes × Bytes × Bytes :=
  (p.take 64, (p.drop 64).take 128, (p.drop 192).take 64)

/-- Modelled from the spec: `ProofVerifier.verify` (section 4.1) — fails
closed on any malformed proof length or wrong public-input count, otherwise
defers to the cryptographic check.  The Rust verifier adapter is not in the
source tree. -/
def verifyProof (crypto : CryptoVerify) (k : Kind) (proof publics : Bytes) : Bool :=
  (proof.length == 256) && (publics.length == 32 * pubArity k)
    && crypto k proof publics

/-! ## Merkle tree insertion -/

/-- Modelled from the spec: `MerkleTreeState.applyInsertion` (section 4.2)
specialised to the handler call pattern `newNextLeafIndex = nextLeafIndex +
leavesAdded`: succeeds only when the expected old root matches the current
root (`StaleRoot` otherwise) and the new leaf count stays within `2^depth`
(`CapacityExceeded` otherwise). -/
def applyInsertion (t : TreeState) (expectedOld newRoot : Fe) (leaves : Nat) :
    Except CpError TreeState :=
  if expectedOld = t.currentRoot then
    if t.nextIndex + leaves ≤ 2 ^ t.depth then
      .ok { depth := t.depth, currentRoot := newRoot, nextIndex := t.nextIndex + leaves }
    else .error .CapacityExceeded
  else .error .StaleRoot

/-! ## Deposit handler -/

/-- Deposit public-signal layout, `DEPOSIT_IDX` in `tests/deposit.ts`:
`[newCommitment, owner, newRoot, newNextLeafIndex, amount, depositHash,
oldRoot]`. -/
def depNewRoot (pubs : Bytes) : Fe := slice32 pubs 2
def depAmount (pubs : Bytes) : Nat := feValLE (slice32 pubs 4)
def depHash (pubs : Bytes) : Fe := slice32 pubs 5
def depOldRoot (pubs : Bytes) : Fe := slice32 pubs 6

/-- A deposit request: the explicit `depositHash` argument, proof and public
inputs of `shielded_deposit_atomic`, together with the SPL token transfer
instruction bundled in the same atomic transaction (its source account and
amount; its destination is the vault by construction, see
`createTransferCheckedInstruction(payerAta, …, vaultAta, …)` in
`tests/deposit.ts`). -/
structure DepositReq where
  depositHash : Fe
  proof : Bytes
  publics : Bytes
  depositor : Nat
  transferAmount : Nat

/-- Modelled from the spec: the Deposit handler algorithm (section 4.5),
checks in order — binding, replay guard, proof, accompanying token transfer,
tree insertion — and, only if all pass, the atomically committed new state:
tree advanced by one leaf to the proof's new root, the new root pushed to
the cache, the deposit marker created, and the token amount moved from the
depositor to the vault. -/
def shieldedDepositAtomic (crypto : CryptoVerify) (st : LedgerState)
    (r : DepositReq) : Except CpError LedgerState :=
  if r.depositHash = depHash r.publics then
    if r.depositHash ∈ st.depositMarkers then .error .DepositAlreadyUsed
    else
      if verifyProof crypto .Deposit r.proof r.publics then
        if r.transferAmount = depAmount r.publics then
          match applyInsertion st.tree (depOldRoot r.publics) (depNewRoot r.publics) 1 with
          | .error e => .error e
          | .ok t2 =>
              .ok { tree := t2,
                    rootCache := rcPush st.rootCache (depNewRoot r.publics),
                    depositMarkers := r.depositHash :: st.depositMarkers,
                    nullifiers := st.nullifiers,
                    balances := transferBal st.balances r.depositor vaultAccount
                                  r.transferAmount }
        else .error .AtomicityViolation
      else .error .InvalidProof
  else .error .ProofInputBinding

/-! ## Transfer handler -/

/-- Transfer public-signal layout, `TRANSFER_IDX` in `tests/transfer.ts`:
`[out1, out2, nullifier, merkleRoot, newRoot1, newRoot2, newNextLeafIndex,
enc1, enc2]`. -/
def tNullifier (pubs : Bytes) : Fe := slice32 pubs 2
def tMerkleRoot (pubs : Bytes) : Fe := slice32 pubs 3
def tNewRoot1 (pubs : Bytes) : Fe := slice32 pubs 4
def tNewRoot2 (pubs : Bytes) : Fe := slice32 pubs 5

/-- A transfer request: explicit nullifier argument, proof, public inputs
(`shielded_transfer`). -/
structure TransferReq where
  nullifier : Fe
  proof : Bytes
  publics : Bytes

/-- Modelled from the spec: the Transfer handler algorithm (section 4.6),
checks in order — binding, replay guard, proof, strict root
synchronization — then two sequential insertions to `newRoot1` and
`newRoot2`, both roots pushed to the cache in that order, and the nullifier
record created.  No token movement. -/
def shieldedTransfer (crypto : CryptoVerify) (st : LedgerState)
    (r : TransferReq) : Except CpError LedgerState :=
  if r.nullifier = tNullifier r.publics then
    if r.nullifier ∈ st.nullifiers then .error .NullifierAlreadyUsed
    else
      if verifyProof crypto .Transfer r.proof r.publics then
        if tMerkleRoot r.publics = st.tree.currentRoot then
          match applyInsertion st.tree (tMerkleRoot r.publics) (tNewRoot1 r.publics) 1 with
          | .error e => .error e
          | .ok t1 =>
              match applyInsertion t1 (tNewRoot1 r.publics) (tNewRoot2 r.publics) 1 with
              | .error e => .error e
              | .ok t2 =>
                  .ok { tree := t2,
                        rootCache := rcPush (rcPush st.rootCache (tNewRoot1 r.publics))
                                       (tNewRoot2 r.publics),
                        depositMarkers := st.depositMarkers,
                        nullifiers := r.nullifier :: st.nullifiers,
                        balances := st.balances }
        else .error .StaleRoot
      else .error .InvalidProof
  else .error .ProofInputBinding

/-! ## Withdraw handler -/

/-- Withdraw public-signal layout (`tests/withdraw.ts`):
`[nullifier, merkleRoot, recipientWalletPubKey, amount, tokenId]`. -/
def wNullifier (pubs : Bytes) : Fe := slice32 pubs 0
def wMerkleRoot (pubs : Bytes) : Fe := slice32 pubs 1
def wRecipient (pubs : Bytes) : Nat := feValLE (slice32 pubs 2)
def wAmount (pubs : Bytes) : Nat := feValLE (slice32 pubs 3)

/-- A withdraw request: explicit nullifier argument, proof, public inputs
(`shielded_withdraw`). -/
structure WithdrawReq where
  nullifier : Fe
  proof : Bytes
  publics : Bytes

/-- Modelled from the spec: the Withdraw handler algorithm (section 4.7),
checks in order — binding, replay guard, proof, tolerant root
synchronization (current root or any cached root) — then the token payout of
the embedded amount from the vault to the embedded recipient, with the
nullifier record created.  MerkleTreeState and RootCache are never
mutated. -/
def shieldedWithdraw (crypto : CryptoVerify) (st : LedgerState)
    (r : WithdrawReq) : Except CpError LedgerState :=
  if r.nullifier = wNullifier r.publics then
    if r.nullifier ∈ st.nullifiers then .error .NullifierAlreadyUsed
    else
      if verifyProof crypto .Withdraw r.proof r.publics then
        if wMerkleRoot r.publics = st.tree.currentRoot ∨
           wMerkleRoot r.publics ∈ st.rootCache.roots then
          .ok { tree := st.tree,
                rootCache := st.rootCache,
                depositMarkers := st.depositMarkers,
                nullifiers := r.nullifier :: st.nullifiers,
                balances := transferBal st.balances vaultAccount (wRecipient r.publics)
                              (wAmount r.publics) }
        else .error .UnknownMerkleRoot
      else .error .InvalidProof
  else .error .ProofInputBinding

/-! ## Root-cache lemmas -/

theorem rcPush_cap (c : RootCache) (r : Fe) : (rcPush c r).cap = c.cap := rfl

theorem rcPush_roots_eq_append (c : RootCache) (r : Fe) (h : 1 ≤ c.cap) :
    ∃ xs, (rcPush c r).roots = xs ++ [r] := by
  unfold rcPush
  dsimp only
  split
  · refine ⟨c.roots.drop ((c.roots ++ [r]).length - c.cap), ?_⟩
    have hd : (c.roots ++ [r]).length - c.cap ≤ c.roots.length := by
      simp only [List.length_append, List.length_cons, List.length_nil]
      omega
    rw [List.drop_append_of_le_length hd]
  · exact ⟨c.roots, rfl⟩

theorem mem_rcPush_self (c : RootCache) (r : Fe) (h : 1 ≤ c.cap) :
    r ∈ (rcPush c r).roots := by
  obtain ⟨xs, hx⟩ := rcPush_roots_eq_append c r h
  rw [hx]
  simp

theorem mem_rcPush_of_last (c : RootCache) (a b : Fe) (xs : List Fe)
    (hc : c.roots = xs ++ [a]) (h : 2 ≤ c.cap) :
    a ∈ (rcPush c b).roots := by
  unfold rcPush
  dsimp only
  rw [hc]
  split
  · rw [List.append_assoc]
    have hd : (xs ++ ([a] ++ [b])).length - c.cap ≤ xs.length := by
      simp only [List.length_append, List.length_cons, List.length_nil]
      omega
    rw [List.drop_append_of_le_length hd]
    simp
  · simp

/-! ## Concrete witness states -/

/-- The always-accepting cryptographic oracle, used for concrete witness
runs (the pairing check is an abstract external capability). -/
def cryptoTrue : CryptoVerify := fun _ _ _ => true

/-- Shorthand: a field element with the given little-endian value. -/
def feW (v : Nat) : Fe := natToLeBytes 32 v

/-- A flat initial balance sheet for witness runs. -/
def balW : Nat → Int := fun _ => 1000000

/-- Witness ledger: fresh depth-16 tree at root `feW 20`, empty cache of
capacity 64, no replay records. -/
def stW0 : LedgerState :=
  { tree := initTreeState 16 (feW 20),
    rootCache := { roots := [], cap := 64 },
    depositMarkers := [], nullifiers := [], balances := balW }

/-- Witness deposit public signals (7 × 32 bytes): new root `feW 21`,
amount 1000, deposit hash `feW 99`, old root `feW 20`. -/
def depPubW : Bytes :=
  feW 11 ++ feW 12 ++ feW 21 ++ feW 1 ++ feW 1000 ++ feW 99 ++ feW 20

/-- Witness deposit request matching `depPubW` and `stW0`. -/
def depReqW : DepositReq :=
  { depositHash := feW 99, proof := List.replicate 256 7, publics := depPubW,
    depositor := 5, transferAmount := 1000 }

/-- The ledger after the witness deposit. -/
def stW1 : LedgerState := commit stW0 (shieldedDepositAtomic cryptoTrue stW0 depReqW)

/-- Witness transfer public signals (9 × 32 bytes): nullifier `feW 77`,
spent root `feW 20`, new roots `feW 41` and `feW 42`. -/
def tPubW : Bytes :=
  feW 31 ++ feW 32 ++ feW 77 ++ feW 20 ++ feW 41 ++ feW 42 ++ feW 2 ++ feW 51 ++ feW 52

/-- Witness transfer request matching `tPubW` and `stW0`. -/
def tReqW : TransferReq :=
  { nullifier := feW 77, proof := List.replicate 256 7, publics := tPubW }

/-- The ledger after the witness transfer. -/
def stT1 : LedgerState := commit stW0 (shieldedTransfer cryptoTrue stW0 tReqW)

/-- Stale-view ledger: current root `feW 30`, while `feW 20` only survives
in the root cache. -/
def stStale : LedgerState :=
  { tree := initTreeState 16 (feW 30),
    rootCache := { roots := [feW 20], cap := 64 },
    depositMarkers := [], nullifiers := [], balances := balW }

/-- Witness withdraw public signals (5 × 32 bytes): nullifier `feW 88`,
root `feW 20` (cached but not current in `stStale`), recipient 3,
amount 500. -/
def wPubW : Bytes := feW 88 ++ feW 20 ++ feW 3 ++ feW 500 ++ feW 1

/-- Witness withdraw request referencing the cached root. -/
def wReqW : WithdrawReq :=
  { nullifier := feW 88, proof := List.replicate 256 7, publics := wPubW }

/-- The ledger after the witness withdraw. -/
def stWd1 : LedgerState := commit stStale (shieldedWithdraw cryptoTrue stStale wReqW)

/-- Withdraw public signals naming a root (`feW 61`) that is neither
current nor cached in `stStale`. -/
def wPubUnknown : Bytes := feW 89 ++ feW 61 ++ feW 3 ++ feW 500 ++ feW 1

/-- Withdraw request carrying the unknown root. -/
def wReqUnknown : WithdrawReq :=
  { nullifier := feW 89, proof := List.replicate 256 7, publics := wPubUnknown }

/-- Transfer publics with a stale embedded root (`feW 99` while the tree of
`stW0` is at `feW 20`). -/
def tPubStaleW : Bytes :=
  feW 31 ++ feW 32 ++ feW 77 ++ feW 99 ++ feW 41 ++ feW 42 ++ feW 2 ++ feW 51 ++ feW 52

/-- A transfer request whose explicit nullifier disagrees with the embedded
one AND whose embedded root is stale. -/
def tReqBindBadW : TransferReq :=
  { nullifier := feW 78, proof := List.replicate 256 7, publics := tPubStaleW }

/-- A transfer request with correct binding but the stale root of
`tPubStaleW`, played against `stStale` where that root is still cached. -/
def tReqStaleW : TransferReq :=
  { nullifier := feW 77, proof := List.replicate 256 7,
    publics := feW 31 ++ feW 32 ++ feW 77 ++ feW 20 ++ feW 41 ++ feW 42
                 ++ feW 2 ++ feW 51 ++ feW 52 }

/-- C9: the genesis root of a tree of depth `d` is the `d`-fold Poseidon
self-hash of the zero leaf — both `computeZeroRoot` implementations
(`migrations/01_init.ts` and `scripts/find_zero_root.ts`) equal iterating
`node := H(node, node)` exactly `d` times from `node = 0`, serialized as 32
little-endian bytes, and for `d = 16` that value is exactly the current root
installed by tree-state initialization. -/
theorem genesis_root_is_iterated_self_hash (H : Nat → Nat → Nat) (d : Nat) :
    computeZeroRoot H d = toLeBytes32 ((fun m => H m m)^[d] 0) ∧
    findZeroRoot H d = toLeBytes32 ((fun m => H m m)^[d] 0) ∧
    (initTreeState 16 (computeZeroRoot H 16)).currentRoot
      = toLeBytes32 ((fun m => H m m)^[16] 0) := by
  refine ⟨?_, ?_, ?_⟩
  · rw [computeZeroRoot, zeroRootLoop_eq_iterate]
  · rw [findZeroRoot, zerosRec_eq_iterate]
  · show computeZeroRoot H 16 = _
    rw [computeZeroRoot, zeroRootLoop_eq_iterate]

/-! ## Claim C7: binding check first -/

/-- C7: for every deposit, transfer or withdraw request whose explicit
`depositHash`/`nullifier` argument differs from the matching value embedded
in the public inputs, the request is rejected with `ProofInputBinding` for
every possible verifier oracle (so no verifier call can influence the
outcome) and the commit leaves the state unchanged. -/
theorem binding_mismatch_rejected_first :
    (∀ (crypto : CryptoVerify) (st : LedgerState) (r : DepositReq),
        r.depositHash ≠ depHash r.publics →
        shieldedDepositAtomic crypto st r = .error .ProofInputBinding ∧
        commit st (shieldedDepositAtomic crypto st r) = st) ∧
    (∀ (crypto : CryptoVerify) (st : LedgerState) (r : TransferReq),
        r.nullifier ≠ tNullifier r.publics →
        shieldedTransfer crypto st r = .error .ProofInputBinding ∧
        commit st (shieldedTransfer crypto st r) = st) ∧
    (∀ (crypto : CryptoVerify) (st : LedgerState) (r : WithdrawReq),
        r.nullifier ≠ wNullifier r.publics →
        shieldedWithdraw crypto st r = .error .ProofInputBinding ∧
        commit st (shieldedWithdraw crypto st r) = st) := by
  refine ⟨?_, ?_, ?_⟩
  · intro crypto st r h
    have he : shieldedDepositAtomic crypto st r = .error .ProofInputBinding := by
      unfold shieldedDepositAtomic
      rw [if_neg h]
    exact ⟨he, by rw [he]; rfl⟩
  · intro crypto st r h
    have he : shieldedTransfer crypto st r = .error .ProofInputBinding := by
      unfold shieldedTransfer
      rw [if_neg h]
    exact ⟨he, by rw [he]; rfl⟩
  · intro crypto st r h
    have he : shieldedWithdraw crypto st r = .error .ProofInputBinding := by
      unfold shieldedWithdraw
      rw [if_neg h]
    exact ⟨he, by rw [he]; rfl⟩

/-- Deposit request whose explicit hash (`feW 98`) disagrees with the
embedded `feW 99`. -/
def depReqBindW : DepositReq :=
  { depositHash := feW 98, proof := List.replicate 256 7, publics := depPubW,
    depositor := 5, transferAmount := 1000 }

/-- Withdraw request whose explicit nullifier (`feW 87`) disagrees with the
embedded `feW 88`. -/
def wReqBindW : WithdrawReq :=
  { nullifier := feW 87, proof := List.replicate 256 7, publics := wPubW }

theorem binding_mismatch_witness :
    shieldedDepositAtomic cryptoTrue stW0 depReqBindW = .error .ProofInputBinding ∧
    shieldedTransfer cryptoTrue stW0 tReqBindBadW = .error .ProofInputBinding ∧
    shieldedWithdraw cryptoTrue stStale wReqBindW = .error .ProofInputBinding :=
  ⟨(binding_mismatch_rejected_first.1 cryptoTrue stW0 depReqBindW (by decide)).1,
   (binding_mismatch_rejected_first.2.1 cryptoTrue stW0 tReqBindBadW (by decide)).1,
   (binding_mismatch_rejected_first.2.2 cryptoTrue stStale wReqBindW (by decide)).1⟩

/-! ## Claim C1: replay-guard test-and-set -/

/-- A deposit whose marker already exists fails with `DepositAlreadyUsed`
(given the binding check passes, as it does on a replay of the same
request). -/
theorem deposit_replay_hit (crypto : CryptoVerify) (st : LedgerState)
    (r : DepositReq) (hb : r.depositHash = depHash r.publics)
    (hm : r.depositHash ∈ st.depositMarkers) :
    shieldedDepositAtomic crypto st r = .error .DepositAlreadyUsed := by
  unfold shieldedDepositAtomic
  rw [if_pos hb, if_pos hm]

/-- A transfer whose nullifier record already exists fails with
`NullifierAlreadyUsed` (given the binding check passes). -/
theorem transfer_replay_hit (crypto : CryptoVerify) (st : LedgerState)
    (r : TransferReq) (hb : r.nullifier = tNullifier r.publics)
    (hm : r.nullifier ∈ st.nullifiers) :
    shieldedTransfer crypto st r = .error .NullifierAlreadyUsed := by
  unfold shieldedTransfer
  rw [if_pos hb, if_pos hm]

/-- A withdraw whose nullifier record already exists fails with
`NullifierAlreadyUsed` (given the binding check passes). -/
theorem withdraw_replay_hit (crypto : CryptoVerify) (st : LedgerState)
    (r : WithdrawReq) (hb : r.nullifier = wNullifier r.publics)
    (hm : r.nullifier ∈ st.nullifiers) :
    shieldedWithdraw crypto st r = .error .NullifierAlreadyUsed := by
  unfold shieldedWithdraw
  rw [if_pos hb, if_pos hm]

/-- A successful deposit passed the binding check and recorded its
deposit-hash marker. -/
theorem deposit_ok_facts (crypto : CryptoVerify) (st : LedgerState)
    (r : DepositReq) (st1 : LedgerState)
    (h : shieldedDepositAtomic crypto st r = .ok st1) :
    r.depositHash = depHash r.publics ∧
    st1.depositMarkers = r.depositHash :: st.depositMarkers := by
  unfold shieldedDepositAtomic at h
  split at h
  · rename_i hbind
    split at h
    · exact Except.noConfusion h
    · split at h
      · split at h
        · split at h
          · exact Except.noConfusion h
          · refine ⟨hbind, ?_⟩
            injection h with h2
            rw [← h2]
        · exact Except.noConfusion h
      · exact Except.noConfusion h
  · exact Except.noConfusion h

/-- A successful transfer passed the binding check and recorded its
nullifier. -/
theorem transfer_ok_facts (crypto : CryptoVerify) (st : LedgerState)
    (r : TransferReq) (st1 : LedgerState)
    (h : shieldedTransfer crypto st r = .ok st1) :
    r.nullifier = tNullifier r.publics ∧
    st1.nullifiers = r.nullifier :: st.nullifiers := by
  unfold shieldedTransfer at h
  split at h
  · rename_i hbind
    split at h
    · exact Except.noConfusion h
    · split at h
      · split at h
        · split at h
          · exact Except.noConfusion h
          · split at h
            · exact Except.noConfusion h
            · refine ⟨hbind, ?_⟩
              injection h with h2
              rw [← h2]
        · exact Except.noConfusion h
      · exact Except.noConfusion h
  · exact Except.noConfusion h

/-- A successful withdraw passed the binding check and recorded its
nullifier. -/
theorem withdraw_ok_facts (crypto : CryptoVerify) (st : LedgerState)
    (r : WithdrawReq) (st1 : LedgerState)
    (h : shieldedWithdraw crypto st r = .ok st1) :
    r.nullifier = wNullifier r.publics ∧
    st1.nullifiers = r.nullifier :: st.nullifiers := by
  unfold shieldedWithdraw at h
  split at h
  · rename_i hbind
    split at h
    · exact Except.noConfusion h
    · split at h
      · split at h
        · refine ⟨hbind, ?_⟩
          injection h with h2
          rw [← h2]
        · exact Except.noConfusion h
      · exact Except.noConfusion h
  · exact Except.noConfusion h

/-- C1: an attempt to create a replay-guard record whose key already exists
fails the whole request and commits nothing, for both record kinds and
every creator: replaying a successful deposit fails with
`DepositAlreadyUsed`; replaying a successful transfer or withdraw fails
with `NullifierAlreadyUsed`; and a NullifierRecord created by one handler
also blocks the other handler on the same key (transfer-then-withdraw and
withdraw-then-transfer), leaving the post-first-run state — tree, cache,
replay records, balances — exactly as it was. -/
theorem replay_guard_all_or_nothing :
    (∀ (crypto : CryptoVerify) (st : LedgerState) (r : DepositReq)
        (st1 : LedgerState),
        shieldedDepositAtomic crypto st r = .ok st1 →
        shieldedDepositAtomic crypto st1 r = .error .DepositAlreadyUsed ∧
        commit st1 (shieldedDepositAtomic crypto st1 r) = st1) ∧
    (∀ (crypto : CryptoVerify) (st : LedgerState) (r : TransferReq)
        (st1 : LedgerState),
        shieldedTransfer crypto st r = .ok st1 →
        shieldedTransfer crypto st1 r = .error .NullifierAlreadyUsed ∧
        commit st1 (shieldedTransfer crypto st1 r) = st1) ∧
    (∀ (crypto : CryptoVerify) (st : LedgerState) (r : WithdrawReq)
        (st1 : LedgerState),
        shieldedWithdraw crypto st r = .ok st1 →
        shieldedWithdraw crypto st1 r = .error .NullifierAlreadyUsed ∧
        commit st1 (shieldedWithdraw crypto st1 r) = st1) ∧
    (∀ (crypto : CryptoVerify) (st : LedgerState) (rT : TransferReq)
        (rW : WithdrawReq) (st1 : LedgerState),
        shieldedTransfer crypto st rT = .ok st1 →
        rW.nullifier = wNullifier rW.publics →
        rW.nullifier = rT.nullifier →
        shieldedWithdraw crypto st1 rW = .error .NullifierAlreadyUsed ∧
        commit st1 (shieldedWithdraw crypto st1 rW) = st1) ∧
    (∀ (crypto : CryptoVerify) (st : LedgerState) (rW : WithdrawReq)
        (rT : TransferReq) (st1 : LedgerState),
        shieldedWithdraw crypto st rW = .ok st1 →
        rT.nullifier = tNullifier rT.publics →
        rT.nullifier = rW.nullifier →
        shieldedTransfer crypto st1 rT = .error .NullifierAlreadyUsed ∧
        commit st1 (shieldedTransfer crypto st1 rT) = st1) := by
  refine ⟨?_, ?_, ?_, ?_, ?_⟩
  · intro crypto st r st1 h
    obtain ⟨hb, hm⟩ := deposit_ok_facts crypto st r st1 h
    have he := deposit_replay_hit crypto st1 r hb
      (by rw [hm]; exact List.mem_cons_self _ _)
    exact ⟨he, by rw [he]; rfl⟩
  · intro crypto st r st1 h
    obtain ⟨hb, hm⟩ := transfer_ok_facts crypto st r st1 h
    have he := transfer_replay_hit crypto st1 r hb
      (by rw [hm]; exact List.mem_cons_self _ _)
    exact ⟨he, by rw [he]; rfl⟩
  · intro crypto st r st1 h
    obtain ⟨hb, hm⟩ := withdraw_ok_facts crypto st r st1 h
    have he := withdraw_replay_hit crypto st1 r hb
      (by rw [hm]; exact List.mem_cons_self _ _)
    exact ⟨he, by rw [he]; rfl⟩
  · intro crypto st rT rW st1 h hbW hnn
    obtain ⟨-, hm⟩ := transfer_ok_facts crypto st rT st1 h
    have he := withdraw_replay_hit crypto st1 rW hbW
      (by rw [hm, hnn]; exact List.mem_cons_self _ _)
    exact ⟨he, by rw [he]; rfl⟩
  · intro crypto st rW rT st1 h hbT hnn
    obtain ⟨-, hm⟩ := withdraw_ok_facts crypto st rW st1 h
    have he := transfer_replay_hit crypto st1 rT hbT
      (by rw [hm, hnn]; exact List.mem_cons_self _ _)
    exact ⟨he, by rw [he]; rfl⟩

/-- Withdraw request reusing the transfer witness's nullifier (`feW 77`),
binding-correct, for the transfer-then-withdraw cross-handler case. -/
def wReqCross : WithdrawReq :=
  { nullifier := feW 77, proof := List.replicate 256 7,
    publics := feW 77 ++ feW 20 ++ feW 3 ++ feW 500 ++ feW 1 }

/-- Transfer request reusing the withdraw witness's nullifier (`feW 88`),
binding-correct, for the withdraw-then-transfer cross-handler case. -/
def tReqCross : TransferReq :=
  { nullifier := feW 88, proof := List.replicate 256 7,
    publics := feW 31 ++ feW 32 ++ feW 88 ++ feW 20 ++ feW 41 ++ feW 42
                 ++ feW 2 ++ feW 51 ++ feW 52 }

theorem replay_guard_witness :
    (shieldedDepositAtomic cryptoTrue stW1 depReqW = .error .DepositAlreadyUsed ∧
     commit stW1 (shieldedDepositAtomic cryptoTrue stW1 depReqW) = stW1) ∧
    (shieldedTransfer cryptoTrue stT1 tReqW = .error .NullifierAlreadyUsed ∧
     commit stT1 (shieldedTransfer cryptoTrue stT1 tReqW) = stT1) ∧
    (shieldedWithdraw cryptoTrue stWd1 wReqW = .error .NullifierAlreadyUsed ∧
     commit stWd1 (shieldedWithdraw cryptoTrue stWd1 wReqW) = stWd1) ∧
    (shieldedWithdraw cryptoTrue stT1 wReqCross = .error .NullifierAlreadyUsed ∧
     commit stT1 (shieldedWithdraw cryptoTrue stT1 wReqCross) = stT1) ∧
    (shieldedTransfer cryptoTrue stWd1 tReqCross = .error .NullifierAlreadyUsed ∧
     commit stWd1 (shieldedTransfer cryptoTrue stWd1 tReqCross) = stWd1) :=
  ⟨replay_guard_all_or_nothing.1 cryptoTrue stW0 depReqW stW1 rfl,
   replay_guard_all_or_nothing.2.1 cryptoTrue stW0 tReqW stT1 rfl,
   replay_guard_all_or_nothing.2.2.1 cryptoTrue stStale wReqW stWd1 rfl,
   replay_guard_all_or_nothing.2.2.2.1 cryptoTrue stW0 tReqW wReqCross stT1 rfl
     (by decide) (by decide),
   replay_guard_all_or_nothing.2.2.2.2 cryptoTrue stStale wReqW tReqCross stWd1 rfl
     (by decide) (by decide)⟩

/-! ## Claim C2: deposit monotonicity -/

/-- C2: every successful deposit advances `nextLeafIndex` by exactly one,
installs the proof's `newRoot` as the current root, leaves `newRoot` in the
root cache (whenever the cache has capacity at all), and the accompanying
token transfer moves exactly the embedded amount from the depositor to the
vault, touching no other balance. -/
theorem deposit_monotonic (crypto : CryptoVerify) (st : LedgerState)
    (r : DepositReq) (st1 : LedgerState)
    (h : shieldedDepositAtomic crypto st r = .ok st1) :
    st1.tree.nextIndex = st.tree.nextIndex + 1 ∧
    st1.tree.currentRoot = depNewRoot r.publics ∧
    (1 ≤ st.rootCache.cap → depNewRoot r.publics ∈ st1.rootCache.roots) ∧
    (r.depositor ≠ vaultAccount →
      st1.balances r.depositor
        = st.balances r.depositor - (depAmount r.publics : Int) ∧
      st1.balances vaultAccount
        = st.balances vaultAccount + (depAmount r.publics : Int)) ∧
    (∀ a, a ≠ r.depositor → a ≠ vaultAccount → st1.balances a = st.balances a) := by
  unfold shieldedDepositAtomic at h
  split at h
  · split at h
    · exact Except.noConfusion h
    · split at h
      · split at h
        · rename_i hamt
          split at h
          · exact Except.noConfusion h
          · rename_i t2 heq
            unfold applyInsertion at heq
            split at heq
            · split at heq
              · cases heq
                cases h
                refine ⟨rfl, rfl, ?_, ?_, ?_⟩
                · intro hc
                  exact mem_rcPush_self _ _ hc
                · intro hne
                  constructor
                  · show transferBal st.balances r.depositor vaultAccount
                      r.transferAmount r.depositor = _
                    simp [transferBal, hne, hamt]
                  · show transferBal st.balances r.depositor vaultAccount
                      r.transferAmount vaultAccount = _
                    simp [transferBal, Ne.symm hne, hamt]
                · intro a ha hv
                  show transferBal st.balances r.depositor vaultAccount
                    r.transferAmount a = _
                  simp [transferBal, ha, hv]
              · exact Except.noConfusion heq
            · exact Except.noConfusion heq
        · exact Except.noConfusion h
      · exact Except.noConfusion h
  · exact Except.noConfusion h

theorem deposit_monotonic_witness :
    stW1.tree.nextIndex = stW0.tree.nextIndex + 1 ∧
    stW1.tree.currentRoot = depNewRoot depReqW.publics ∧
    (1 ≤ stW0.rootCache.cap → depNewRoot depReqW.publics ∈ stW1.rootCache.roots) ∧
    (depReqW.depositor ≠ vaultAccount →
      stW1.balances depReqW.depositor
        = stW0.balances depReqW.depositor - (depAmount depReqW.publics : Int) ∧
      stW1.balances vaultAccount
        = stW0.balances vaultAccount + (depAmount depReqW.publics : Int)) ∧
    (∀ a, a ≠ depReqW.depositor → a ≠ vaultAccount →
      stW1.balances a = stW0.balances a) :=
  deposit_monotonic cryptoTrue stW0 depReqW stW1 rfl

/-- Characterization of a successful tree insertion. -/
theorem applyInsertion_ok (t : TreeState) (eo nr : Fe) (lv : Nat) (t2 : TreeState)
    (h : applyInsertion t eo nr lv = .ok t2) :
    eo = t.currentRoot ∧ t.nextIndex + lv ≤ 2 ^ t.depth ∧
    t2 = { depth := t.depth, currentRoot := nr, nextIndex := t.nextIndex + lv } := by
  unfold applyInsertion at h
  split at h
  · split at h
    · exact ⟨by assumption, by assumption, (Except.ok.inj h).symm⟩
    · exact Except.noConfusion h
  · exact Except.noConfusion h

/-! ## Claim C3: transfer monotonicity -/

/-- C3: every successful transfer advances `nextLeafIndex` by exactly two,
installs the proof's `newRoot2` as the current root, pushes `newRoot1` then
`newRoot2` to the root cache in that order, and (for any cache of capacity
at least two) leaves both roots as members of the cache. -/
theorem transfer_monotonic (crypto : CryptoVerify) (st : LedgerState)
    (r : TransferReq) (st1 : LedgerState)
    (h : shieldedTransfer crypto st r = .ok st1) :
    st1.tree.nextIndex = st.tree.nextIndex + 2 ∧
    st1.tree.currentRoot = tNewRoot2 r.publics ∧
    st1.rootCache
      = rcPush (rcPush st.rootCache (tNewRoot1 r.publics)) (tNewRoot2 r.publics) ∧
    (2 ≤ st.rootCache.cap →
      tNewRoot1 r.publics ∈ st1.rootCache.roots ∧
      tNewRoot2 r.publics ∈ st1.rootCache.roots) := by
  unfold shieldedTransfer at h
  split at h
  · split at h
    · exact Except.noConfusion h
    · split at h
      · split at h
        · split at h
          · exact Except.noConfusion h
          · rename_i t1 heq1
            split at h
            · exact Except.noConfusion h
            · rename_i t2 heq2
              obtain ⟨-, -, ht1⟩ := applyInsertion_ok _ _ _ _ _ heq1
              subst ht1
              obtain ⟨-, -, ht2⟩ := applyInsertion_ok _ _ _ _ _ heq2
              subst ht2
              cases h
              refine ⟨rfl, rfl, rfl, ?_⟩
              intro hcap
              constructor
              · obtain ⟨xs, hx⟩ := rcPush_roots_eq_append st.rootCache
                  (tNewRoot1 r.publics) (le_trans one_le_two hcap)
                exact mem_rcPush_of_last _ _ _ xs hx
                  (by rw [rcPush_cap]; exact hcap)
              · exact mem_rcPush_self _ _
                  (by rw [rcPush_cap]; exact le_trans one_le_two hcap)
        · exact Except.noConfusion h
      · exact Except.noConfusion h
  · exact Except.noConfusion h

theorem transfer_monotonic_witness :
    stT1.tree.nextIndex = stW0.tree.nextIndex + 2 ∧
    stT1.tree.currentRoot = tNewRoot2 tReqW.publics ∧
    stT1.rootCache
      = rcPush (rcPush stW0.rootCache (tNewRoot1 tReqW.publics))
          (tNewRoot2 tReqW.publics) ∧
    (2 ≤ stW0.rootCache.cap →
      tNewRoot1 tReqW.publics ∈ stT1.rootCache.roots ∧
      tNewRoot2 tReqW.publics ∈ stT1.rootCache.roots) :=
  transfer_monotonic cryptoTrue stW0 tReqW stT1 rfl

/-! ## Claim C4: transfer strict synchronization (corrected) -/

/-- C4 (amended): a transfer whose embedded `merkleRoot` differs from the
current root can never commit — even when that root is still present in the
RootCache — and, whenever the earlier pipeline stages (binding, replay
guard, proof verification) pass, the rejection is precisely `StaleRoot`,
with the state left unchanged. -/
theorem transfer_strict_sync (crypto : CryptoVerify) (st : LedgerState)
    (r : TransferReq) :
    (∀ st1, tMerkleRoot r.publics ≠ st.tree.currentRoot →
        shieldedTransfer crypto st r ≠ .ok st1) ∧
    (r.nullifier = tNullifier r.publics →
     r.nullifier ∉ st.nullifiers →
     verifyProof crypto .Transfer r.proof r.publics = true →
     tMerkleRoot r.publics ≠ st.tree.currentRoot →
        shieldedTransfer crypto st r = .error .StaleRoot ∧
        commit st (shieldedTransfer crypto st r) = st) := by
  constructor
  · intro st1 hne hok
    unfold shieldedTransfer at hok
    split at hok
    · split at hok
      · exact Except.noConfusion hok
      · split at hok
        · exact Except.noConfusion hok
        · exact Except.noConfusion hok
    · exact Except.noConfusion hok
  · intro hb hn hv hne
    have he : shieldedTransfer crypto st r = .error .StaleRoot := by
      unfold shieldedTransfer
      rw [if_pos hb, if_neg hn, if_pos hv, if_neg hne]
    exact ⟨he, by rw [he]; rfl⟩

/-- C4 counterexample: a request with a stale embedded root that also fails
the binding check is rejected with `ProofInputBinding`, not `StaleRoot`, so
"every transfer request whose embedded merkleRoot differs … is rejected
with StaleRoot" does not hold as stated. -/
theorem transfer_strict_sync_cex :
    tMerkleRoot tReqBindBadW.publics ≠ stW0.tree.currentRoot ∧
    shieldedTransfer cryptoTrue stW0 tReqBindBadW = .error .ProofInputBinding ∧
    CpError.ProofInputBinding ≠ CpError.StaleRoot :=
  ⟨by decide, rfl, by decide⟩

theorem transfer_strict_sync_witness :
    shieldedTransfer cryptoTrue stStale tReqStaleW = .error .StaleRoot ∧
    commit stStale (shieldedTransfer cryptoTrue stStale tReqStaleW) = stStale ∧
    tMerkleRoot tReqStaleW.publics ∈ stStale.rootCache.roots ∧
    (∀ st1, shieldedTransfer cryptoTrue stStale tReqStaleW ≠ .ok st1) :=
  ⟨((transfer_strict_sync cryptoTrue stStale tReqStaleW).2
      (by decide) (by decide) rfl (by decide)).1,
   ((transfer_strict_sync cryptoTrue stStale tReqStaleW).2
      (by decide) (by decide) rfl (by decide)).2,
   by decide,
   fun st1 => (transfer_strict_sync cryptoTrue stStale tReqStaleW).1 st1 (by decide)⟩

/-! ## Claim C5: withdraw tolerant synchronization -/

/-- C5: a withdraw's embedded `merkleRoot` passes the root check exactly
when it equals the current root or is contained in the root cache — any
successful withdraw used such a root; a request that passes binding,
replay and proof checks succeeds precisely for such roots and fails with
`UnknownMerkleRoot` otherwise — and a withdraw never mutates the
MerkleTreeState or the RootCache. -/
theorem withdraw_tolerant_sync (crypto : CryptoVerify) (st : LedgerState)
    (r : WithdrawReq) :
    (∀ st1, shieldedWithdraw crypto st r = .ok st1 →
        st1.tree = st.tree ∧ st1.rootCache = st.rootCache ∧
        (wMerkleRoot r.publics = st.tree.currentRoot ∨
         wMerkleRoot r.publics ∈ st.rootCache.roots)) ∧
    (r.nullifier = wNullifier r.publics →
     r.nullifier ∉ st.nullifiers →
     verifyProof crypto .Withdraw r.proof r.publics = true →
        ((wMerkleRoot r.publics = st.tree.currentRoot ∨
          wMerkleRoot r.publics ∈ st.rootCache.roots) →
            ∃ st1, shieldedWithdraw crypto st r = .ok st1) ∧
        (¬ (wMerkleRoot r.publics = st.tree.currentRoot ∨
            wMerkleRoot r.publics ∈ st.rootCache.roots) →
            shieldedWithdraw crypto st r = .error .UnknownMerkleRoot ∧
            commit st (shieldedWithdraw crypto st r) = st)) := by
  constructor
  · intro st1 h
    unfold shieldedWithdraw at h
    split at h
    · split at h
      · exact Except.noConfusion h
      · split at h
        · split at h
          · rename_i hroot
            cases h
            exact ⟨rfl, rfl, hroot⟩
          · exact Except.noConfusion h
        · exact Except.noConfusion h
    · exact Except.noConfusion h
  · intro hb hn hv
    constructor
    · intro hroot
      exact ⟨_, by
        unfold shieldedWithdraw
        rw [if_pos hb, if_neg hn, if_pos hv, if_pos hroot]⟩
    · intro hroot
      have he : shieldedWithdraw crypto st r = .error .UnknownMerkleRoot := by
        unfold shieldedWithdraw
        rw [if_pos hb, if_neg hn, if_pos hv, if_neg hroot]
      exact ⟨he, by rw [he]; rfl⟩

theorem withdraw_tolerant_sync_witness :
    (∃ st1, shieldedWithdraw cryptoTrue stStale wReqW = .ok st1) ∧
    shieldedWithdraw cryptoTrue stStale wReqUnknown = .error .UnknownMerkleRoot ∧
    stWd1.tree = stStale.tree ∧ stWd1.rootCache = stStale.rootCache :=
  ⟨((withdraw_tolerant_sync cryptoTrue stStale wReqW).2
      (by decide) (by decide) rfl).1 (by decide),
   (((withdraw_tolerant_sync cryptoTrue stStale wReqUnknown).2
      (by decide) (by decide) rfl).2 (by decide)).1,
   ((withdraw_tolerant_sync cryptoTrue stStale wReqW).1 stWd1 rfl).1,
   ((withdraw_tolerant_sync cryptoTrue stStale wReqW).1 stWd1 rfl).2.1⟩

/-! ## Claim C6: withdraw payout exactness -/

/-- C6: every successful withdraw pays the recipient embedded in the public
inputs exactly the embedded amount out of the custody (vault) account:
recipient balance up by `amount`, vault balance down by `amount`, every
other balance untouched. -/
theorem withdraw_payout_exact (crypto : CryptoVerify) (st : LedgerState)
    (r : WithdrawReq) (st1 : LedgerState)
    (h : shieldedWithdraw crypto st r = .ok st1) :
    (wRecipient r.publics ≠ vaultAccount →
      st1.balances (wRecipient r.publics)
        = st.balances (wRecipient r.publics) + (wAmount r.publics : Int) ∧
      st1.balances vaultAccount
        = st.balances vaultAccount - (wAmount r.publics : Int)) ∧
    (∀ a, a ≠ wRecipient r.publics → a ≠ vaultAccount →
      st1.balances a = st.balances a) := by
  unfold shieldedWithdraw at h
  split at h
  · split at h
    · exact Except.noConfusion h
    · split at h
      · split at h
        · cases h
          constructor
          · intro hne
            constructor
            · show transferBal st.balances vaultAccount (wRecipient r.publics)
                (wAmount r.publics) (wRecipient r.publics) = _
              simp [transferBal, hne]
            · show transferBal st.balances vaultAccount (wRecipient r.publics)
                (wAmount r.publics) vaultAccount = _
              simp [transferBal, Ne.symm hne]
          · intro a ha hv
            show transferBal st.balances vaultAccount (wRecipient r.publics)
              (wAmount r.publics) a = _
            simp [transferBal, ha, hv]
        · exact Except.noConfusion h
      · exact Except.noConfusion h
  · exact Except.noConfusion h

theorem withdraw_payout_exact_witness :
    (wRecipient wReqW.publics ≠ vaultAccount →
      stWd1.balances (wRecipient wReqW.publics)
        = stStale.balances (wRecipient wReqW.publics) + (wAmount wReqW.publics : Int) ∧
      stWd1.balances vaultAccount
        = stStale.balances vaultAccount - (wAmount wReqW.publics : Int)) ∧
    (∀ a, a ≠ wRecipient wReqW.publics → a ≠ vaultAccount →
      stWd1.balances a = stStale.balances a) :=
  withdraw_payout_exact cryptoTrue stStale wReqW stWd1 rfl

/-! ## Claim C8: verifier shape, fails closed -/

/-- The verifier returns `false` whenever the proof blob is not 256 bytes
or the public-input byte count does not match the kind's arity. -/
theorem verifyProof_eq_false_of_shape (crypto : CryptoVerify) (k : Kind)
    (p pub : Bytes) (h : p.length ≠ 256 ∨ pub.length ≠ 32 * pubArity k) :
    verifyProof crypto k p pub = false := by
  unfold verifyProof
  rcases h with h | h
  · simp [h]
  · simp [h]

/-- C8: a proof accepted by the verifier is exactly 256 bytes, splitting
into 64 + 128 + 64-byte components, with public inputs of 7×32 bytes for
Deposit, 9×32 for Transfer and 5×32 for Withdraw; any other proof length or
public-input count makes the verifier return `false` (fails closed), which
each handler surfaces as `InvalidProof`. -/
theorem proof_shape_fails_closed :
    (∀ (crypto : CryptoVerify) (k : Kind) (p pub : Bytes),
        verifyProof crypto k p pub = true →
        p.length = 256 ∧ pub.length = 32 * pubArity k ∧
        (splitProof p).1.length = 64 ∧ (splitProof p).2.1.length = 128 ∧
        (splitProof p).2.2.length = 64) ∧
    (pubArity .Deposit = 7 ∧ pubArity .Transfer = 9 ∧ pubArity .Withdraw = 5) ∧
    (∀ (crypto : CryptoVerify) (k : Kind) (p pub : Bytes),
        p.length ≠ 256 ∨ pub.length ≠ 32 * pubArity k →
        verifyProof crypto k p pub = false) ∧
    (∀ (crypto : CryptoVerify) (st : LedgerState) (r : DepositReq),
        r.depositHash = depHash r.publics →
        r.depositHash ∉ st.depositMarkers →
        r.proof.length ≠ 256 ∨ r.publics.length ≠ 32 * pubArity .Deposit →
        shieldedDepositAtomic crypto st r = .error .InvalidProof) ∧
    (∀ (crypto : CryptoVerify) (st : LedgerState) (r : TransferReq),
        r.nullifier = tNullifier r.publics →
        r.nullifier ∉ st.nullifiers →
        r.proof.length ≠ 256 ∨ r.publics.length ≠ 32 * pubArity .Transfer →
        shieldedTransfer crypto st r = .error .InvalidProof) ∧
    (∀ (crypto : CryptoVerify) (st : LedgerState) (r : WithdrawReq),
        r.nullifier = wNullifier r.publics →
        r.nullifier ∉ st.nullifiers →
        r.proof.length ≠ 256 ∨ r.publics.length ≠ 32 * pubArity .Withdraw →
        shieldedWithdraw crypto st r = .error .InvalidProof) := by
  refine ⟨?_, ⟨rfl, rfl, rfl⟩, verifyProof_eq_false_of_shape, ?_, ?_, ?_⟩
  · intro crypto k p pub h
    unfold verifyProof at h
    simp only [Bool.and_eq_true, beq_iff_eq] at h
    obtain ⟨⟨hp, hpub⟩, -⟩ := h
    refine ⟨hp, hpub, ?_, ?_, ?_⟩ <;>
      simp [splitProof, hp]
  · intro crypto st r hb hm hlen
    unfold shieldedDepositAtomic
    rw [if_pos hb, if_neg hm,
        if_neg (by rw [verifyProof_eq_false_of_shape crypto _ _ _ hlen]; decide)]
  · intro crypto st r hb hm hlen
    unfold shieldedTransfer
    rw [if_pos hb, if_neg hm,
        if_neg (by rw [verifyProof_eq_false_of_shape crypto _ _ _ hlen]; decide)]
  · intro crypto st r hb hm hlen
    unfold shieldedWithdraw
    rw [if_pos hb, if_neg hm,
        if_neg (by rw [verifyProof_eq_false_of_shape crypto _ _ _ hlen]; decide)]

/-- Deposit request with a truncated (100-byte) proof blob. -/
def depReqShortW : DepositReq :=
  { depositHash := feW 99, proof := List.replicate 100 7, publics := depPubW,
    depositor := 5, transferAmount := 1000 }

theorem proof_shape_fails_closed_witness :
    ((List.replicate 256 7 : Bytes).length = 256 ∧
     depPubW.length = 32 * pubArity .Deposit ∧
     (splitProof (List.replicate 256 7)).1.length = 64 ∧
     (splitProof (List.replicate 256 7)).2.1.length = 128 ∧
     (splitProof (List.replicate 256 7)).2.2.length = 64) ∧
    verifyProof cryptoTrue .Deposit (List.replicate 100 7) depPubW = false ∧
    shieldedDepositAtomic cryptoTrue stW0 depReqShortW = .error .InvalidProof :=
  ⟨proof_shape_fails_closed.1 cryptoTrue .Deposit (List.replicate 256 7) depPubW
      (by decide),
   proof_shape_fails_closed.2.2.1 cryptoTrue .Deposit (List.replicate 100 7) depPubW
      (Or.inl (by decide)),
   proof_shape_fails_closed.2.2.2.1 cryptoTrue stW0 depReqShortW
      (by decide) (by decide) (Or.inl (by decide))⟩

/-! ## Base58 and the recipient-owner limb helpers

`tests/recipientOwnerLimbs.ts` splits a base58 Solana public key into two
little-endian 128-bit limbs and rebuilds it.  The `bs58` npm package it
calls is modelled here by the standard base-x algorithm: leading `1`
characters encode leading zero bytes, the rest is one big base-58 number. -/

/-- Division chain producing positional digits, most significant first, in
base `B2 + 2`, with explicit fuel so that the recursion is structural (the
base offset keeps every quotient strictly decreasing, so fuel `n` always
suffices for input `n`). -/
def natBaseDigitsFuel (B2 : Nat) : Nat → Nat → List Nat
  | 0, _ => []
  | fuel + 1, n =>
      if n = 0 then []
      else natBaseDigitsFuel B2 fuel (n / (B2 + 2)) ++ [n % (B2 + 2)]

/-- Minimal digit string of a natural in base `B2 + 2`, most significant
digit first (`[]` for zero). -/
def natBaseDigits (B2 n : Nat) : List Nat := natBaseDigitsFuel B2 n n

theorem natBaseDigitsFuel_congr (B2 : Nat) :
    ∀ f1 f2 n : Nat, n ≤ f1 → n ≤ f2 →
      natBaseDigitsFuel B2 f1 n = natBaseDigitsFuel B2 f2 n := by
  intro f1
  induction f1 with
  | zero =>
      intro f2 n h1 h2
      have hn : n = 0 := by omega
      subst hn
      cases f2 <;> simp [natBaseDigitsFuel]
  | succ f ih =>
      intro f2 n h1 h2
      cases n with
      | zero => cases f2 <;> simp [natBaseDigitsFuel]
      | succ m =>
          cases f2 with
          | zero => omega
          | succ g =>
              simp only [natBaseDigitsFuel, if_neg (Nat.succ_ne_zero m)]
              have hq : (m + 1) / (B2 + 2) < m + 1 :=
                Nat.div_lt_self (Nat.succ_pos m) (by omega)
              congr 1
              exact ih g _ (by omega) (by omega)

/-- Value of a most-significant-first digit string in base `B2 + 2`. -/
def baseVal (B2 : Nat) (ds : List Nat) : Nat :=
  ds.foldl (fun a d => a * (B2 + 2) + d) 0

/-- Minimal big-endian byte string of a natural (the bignum-to-bytes step
of `bs58.decode`). -/
def natBytesBE (n : Nat) : List Nat := natBaseDigits 254 n

/-- Big-endian value of a byte string. -/
def bytesValBE (bs : List Nat) : Nat := baseVal 254 bs

/-- Minimal base-58 digit string of a natural (the bignum step of
`bs58.encode`). -/
def natDigits58 (n : Nat) : List Nat := natBaseDigits 56 n

/-- Value of a base-58 digit string. -/
def digitsVal (ds : List Nat) : Nat := baseVal 56 ds

/-- The bitcoin base58 alphabet used by `bs58`. -/
def b58AlphaChars : List Char :=
  "123456789ABCDEFGHJKLMNPQRSTUVWXYZabcdefghijkmnopqrstuvwxyz".toList

/-- Digit value to alphabet character. -/
def b58Char (d : Nat) : Char := b58AlphaChars.getD d '1'

/-- Alphabet character to digit value; `none` for characters outside the
alphabet. -/
def b58Val (c : Char) : Option Nat :=
  (List.range 58).find? (fun d => b58Char d = c)

/-- Digit values of a character string; fails on the first character
outside the alphabet (where `bs58.decode` throws). -/
def b58Vals : List Char → Option (List Nat)
  | [] => some []
  | c :: rest =>
      match b58Val c, b58Vals rest with
      | some d, some ds => some (d :: ds)
      | _, _ => none

/-- Model of `bs58.decode`: leading zero digits (the `1` characters)
become leading zero bytes; the remaining digits are one base-58 number,
written out as minimal big-endian bytes. -/
def decodeB58 (s : List Char) : Option (List Nat) :=
  match b58Vals s with
  | none => none
  | some ds =>
      some (List.replicate ((ds.takeWhile (fun d => d == 0)).length) 0
              ++ natBytesBE (digitsVal ds))

/-- Model of `bs58.encode`: leading zero bytes become `1` characters; the
rest is the base-58 digit string of the bytes' big-endian value. -/
def encodeB58 (b : List Nat) : List Char :=
  List.replicate ((b.takeWhile (fun x => x == 0)).length) '1'
    ++ (natDigits58 (bytesValBE b)).map b58Char

/-- `recipientOwnerToLimbsLE` from `tests/recipientOwnerLimbs.ts`: decode
the base58 key, require exactly 32 bytes (a thrown error is modelled as
`none`), and return the little-endian values of bytes 0..16 (`lo`) and
16..32 (`hi`). -/
def recipientOwnerToLimbsLE (s : List Char) : Option (Nat × Nat) :=
  match decodeB58 s with
  | none => none
  | some raw =>
      if raw.length = 32 then
        some (leBytesToBigint (raw.take 16), leBytesToBigint ((raw.drop 16).take 16))
      else none

/-- `limbsToRecipientOwnerBase58` from `tests/recipientOwnerLimbs.ts`:
serialize each limb as 16 little-endian bytes, concatenate
(`lo[0..16] ++ hi[0..16]`), and base58-encode. -/
def limbsToRecipientOwnerBase58 (lo hi : Nat) : List Char :=
  encodeB58 (natToLeBytes 16 lo ++ natToLeBytes 16 hi)

/-! ### Positional arithmetic lemmas -/

theorem baseVal_foldl (B2 : Nat) :
    ∀ (ds : List Nat) (acc : Nat),
      ds.foldl (fun a d => a * (B2 + 2) + d) acc
        = acc * (B2 + 2) ^ ds.length + baseVal B2 ds := by
  intro ds
  induction ds with
  | nil => intro acc; simp [baseVal]
  | cons d r ih =>
      intro acc
      have hv : baseVal B2 (d :: r)
          = (0 * (B2 + 2) + d) * (B2 + 2) ^ r.length + baseVal B2 r := by
        show List.foldl _ _ _ = _
        rw [List.foldl_cons, ih]
      rw [List.foldl_cons, ih, hv]
      simp only [List.length_cons, pow_succ]
      ring

theorem baseVal_cons (B2 d : Nat) (r : List Nat) :
    baseVal B2 (d :: r) = d * (B2 + 2) ^ r.length + baseVal B2 r := by
  show List.foldl _ _ _ = _
  rw [List.foldl_cons, baseVal_foldl]
  ring

theorem baseVal_append (B2 : Nat) (a b : List Nat) :
    baseVal B2 (a ++ b) = baseVal B2 a * (B2 + 2) ^ b.length + baseVal B2 b := by
  show List.foldl _ _ _ = _
  rw [List.foldl_append]
  exact baseVal_foldl B2 b (baseVal B2 a)

theorem baseVal_replicate_zero (B2 z : Nat) :
    baseVal B2 (List.replicate z 0) = 0 := by
  induction z with
  | zero => rfl
  | succ m ih => rw [List.replicate_succ, baseVal_cons, ih]; ring

theorem baseVal_pos (B2 h : Nat) (t : List Nat) (hh : h ≠ 0) :
    0 < baseVal B2 (h :: t) := by
  rw [baseVal_cons]
  have h1 : 0 < (B2 + 2) ^ t.length := pow_pos (by omega) _
  have h2 : 0 < h * (B2 + 2) ^ t.length := Nat.mul_pos (Nat.pos_of_ne_zero hh) h1
  omega

theorem natBaseDigits_eq (B2 n : Nat) (h : n ≠ 0) :
    natBaseDigits B2 n = natBaseDigits B2 (n / (B2 + 2)) ++ [n % (B2 + 2)] := by
  unfold natBaseDigits
  cases n with
  | zero => exact absurd rfl h
  | succ m =>
      have hstep : natBaseDigitsFuel B2 (m + 1) (m + 1)
          = natBaseDigitsFuel B2 m ((m + 1) / (B2 + 2)) ++ [(m + 1) % (B2 + 2)] := by
        simp [natBaseDigitsFuel]
      rw [hstep]
      congr 1
      apply natBaseDigitsFuel_congr
      · have : (m + 1) / (B2 + 2) < m + 1 :=
          Nat.div_lt_self (Nat.succ_pos m) (by omega)
        omega
      · exact Nat.le_refl _

theorem natBaseDigits_val (B2 : Nat) : ∀ n, baseVal B2 (natBaseDigits B2 n) = n := by
  intro n
  induction n using Nat.strong_induction_on with
  | _ n ih =>
      cases n with
      | zero => rfl
      | succ m =>
          rw [natBaseDigits_eq B2 (m + 1) (Nat.succ_ne_zero m), baseVal_append,
              ih ((m + 1) / (B2 + 2)) (Nat.div_lt_self (Nat.succ_pos m) (by omega))]
          have hone : baseVal B2 [(m + 1) % (B2 + 2)] = (m + 1) % (B2 + 2) := by
            rw [show [(m + 1) % (B2 + 2)] = (m + 1) % (B2 + 2) :: [] from rfl,
                baseVal_cons]
            simp [baseVal]
          rw [hone]
          have : (m + 1) / (B2 + 2) * (B2 + 2) ^ ([(m + 1) % (B2 + 2)] : List Nat).length
              = (B2 + 2) * ((m + 1) / (B2 + 2)) := by
            simp [pow_one]
            ring
          rw [this, Nat.div_add_mod]

theorem natBaseDigits_lt (B2 : Nat) : ∀ n, ∀ x ∈ natBaseDigits B2 n, x < B2 + 2 := by
  intro n
  induction n using Nat.strong_induction_on with
  | _ n ih =>
      cases n with
      | zero => intro x hx; exact absurd hx (by simp [natBaseDigits, natBaseDigitsFuel])
      | succ m =>
          intro x hx
          rw [natBaseDigits_eq B2 (m + 1) (Nat.succ_ne_zero m)] at hx
          rcases List.mem_append.mp hx with hx | hx
          · exact ih ((m + 1) / (B2 + 2))
              (Nat.div_lt_self (Nat.succ_pos m) (by omega)) x hx
          · rw [List.mem_singleton.mp hx]
            exact Nat.mod_lt _ (by omega)

theorem natBaseDigits_head (B2 : Nat) :
    ∀ n, n ≠ 0 → ∃ d t, natBaseDigits B2 n = d :: t ∧ d ≠ 0 := by
  intro n
  induction n using Nat.strong_induction_on with
  | _ n ih =>
      intro hn
      rw [natBaseDigits_eq B2 n hn]
      by_cases hq : n / (B2 + 2) = 0
      · rw [hq]
        refine ⟨n % (B2 + 2), [], rfl, ?_⟩
        have : n < B2 + 2 := (Nat.div_eq_zero_iff (by omega)).mp hq
        rw [Nat.mod_eq_of_lt this]
        exact hn
      · obtain ⟨d, t, hdt, hd⟩ := ih (n / (B2 + 2))
          (Nat.div_lt_self (Nat.pos_of_ne_zero hn) (by omega)) hq
        exact ⟨d, t ++ [n % (B2 + 2)], by rw [hdt]; rfl, hd⟩

theorem natBaseDigits_of_canonical (B2 : Nat) :
    ∀ ds : List Nat, (∀ d ∈ ds, d < B2 + 2) → ds.head? ≠ some 0 →
      natBaseDigits B2 (baseVal B2 ds) = ds := by
  intro ds
  induction ds using List.reverseRecOn with
  | nil =>
      intro _ _
      rfl
  | append_singleton init d ih =>
      intro hlt hhead
      have hdlt : d < B2 + 2 := hlt d (by simp)
      have hv : baseVal B2 (init ++ [d]) = baseVal B2 init * (B2 + 2) + d := by
        rw [baseVal_append]
        have h1 : baseVal B2 [d] = d := by
          rw [show [d] = d :: [] from rfl, baseVal_cons]; simp [baseVal]
        rw [h1]
        simp [pow_one]
      rw [hv]
      have hnz : baseVal B2 init * (B2 + 2) + d ≠ 0 := by
        intro hz
        have hvz : baseVal B2 init = 0 := by
          have hmul := Nat.eq_zero_of_add_eq_zero_right hz
          exact (Nat.mul_eq_zero.mp hmul).elim id (fun hb => absurd hb (by omega))
        have hdz : d = 0 := Nat.eq_zero_of_add_eq_zero_left hz
        cases hinit : init with
        | nil =>
            apply hhead
            rw [hinit, hdz]
            rfl
        | cons h0 t0 =>
            have hh0 : h0 ≠ 0 := by
              intro hh
              apply hhead
              rw [hinit, hh]
              rfl
            have := baseVal_pos B2 h0 t0 hh0
            rw [← hinit] at this
            omega
      rw [natBaseDigits_eq B2 _ hnz]
      have hdiv : (baseVal B2 init * (B2 + 2) + d) / (B2 + 2) = baseVal B2 init := by
        rw [Nat.mul_comm (baseVal B2 init) (B2 + 2), Nat.mul_add_div (by omega),
            Nat.div_eq_of_lt hdlt]
        omega
      have hmod : (baseVal B2 init * (B2 + 2) + d) % (B2 + 2) = d := by
        rw [Nat.mul_comm (baseVal B2 init) (B2 + 2), Nat.mul_add_mod]
        exact Nat.mod_eq_of_lt hdlt
      rw [hdiv, hmod]
      have hih : natBaseDigits B2 (baseVal B2 init) = init := by
        apply ih
        · intro e he
          exact hlt e (List.mem_append_left _ he)
        · cases hinit : init with
          | nil => simp
          | cons h0 t0 =>
              intro hcontra
              apply hhead
              rw [hinit]
              simpa using hcontra
      rw [hih]

/-! ### Alphabet and digit-string lemmas -/

theorem b58Val_some {c : Char} {d : Nat} (h : b58Val c = some d) :
    d < 58 ∧ b58Char d = c := by
  unfold b58Val at h
  refine ⟨List.mem_range.mp (List.mem_of_find?_eq_some h), ?_⟩
  have hp := @List.find?_some Nat (fun e => decide (b58Char e = c)) d (List.range 58) h
  exact of_decide_eq_true hp

theorem b58Vals_some :
    ∀ {s : List Char} {ds : List Nat}, b58Vals s = some ds →
      s = ds.map b58Char ∧ ∀ d ∈ ds, d < 58 := by
  intro s
  induction s with
  | nil =>
      intro ds h
      unfold b58Vals at h
      injection h with h2
      subst h2
      exact ⟨rfl, by simp⟩
  | cons c rest ih =>
      intro ds h
      unfold b58Vals at h
      split at h
      · rename_i d ds2 hc hrest
        injection h with h2
        subst h2
        obtain ⟨hmap, hlt⟩ := ih hrest
        obtain ⟨hdlt, hchar⟩ := b58Val_some hc
        constructor
        · rw [List.map_cons, hchar, ← hmap]
        · intro e he
          rcases List.mem_cons.mp he with he | he
          · rw [he]; exact hdlt
          · exact hlt e he
      all_goals exact Option.noConfusion h

theorem natToLeBytes_leBytesToBigint :
    ∀ l : List Nat, (∀ x ∈ l, x < 256) →
      natToLeBytes l.length (leBytesToBigint l) = l := by
  intro l
  induction l with
  | nil => intro _; rfl
  | cons b r ih =>
      intro hlt
      have hb : b < 256 := hlt b (by simp)
      show natToLeBytes (r.length + 1) (b + 256 * leBytesToBigint r) = b :: r
      rw [natToLeBytes]
      congr 1
      · rw [Nat.add_mul_mod_self_left, Nat.mod_eq_of_lt hb]
      · have hdiv : (b + 256 * leBytesToBigint r) / 256 = leBytesToBigint r := by
          rw [Nat.add_mul_div_left _ _ (by norm_num : (0:Nat) < 256),
              Nat.div_eq_of_lt hb]
          omega
        rw [hdiv]
        exact ih (fun x hx => hlt x (by simp [hx]))

theorem decodeB58_lt {s : List Char} {b : List Nat} (h : decodeB58 s = some b) :
    ∀ x ∈ b, x < 256 := by
  unfold decodeB58 at h
  split at h
  · exact Option.noConfusion h
  · rename_i ds hds
    injection h with h2
    subst h2
    intro x hx
    rcases List.mem_append.mp hx with hx | hx
    · rw [List.eq_of_mem_replicate hx]; omega
    · have := natBaseDigits_lt 254 (digitsVal ds) x hx
      omega

theorem decodeB58_length_32 {s : List Char} {b : List Nat}
    (h : decodeB58 s = some b) (hlen : b.length = 32) :
    natToLeBytes 16 (leBytesToBigint (b.take 16)) = b.take 16 ∧
    natToLeBytes 16 (leBytesToBigint ((b.drop 16).take 16)) = b.drop 16 := by
  have hbound := decodeB58_lt h
  have h1 : (b.take 16).length = 16 := by
    rw [List.length_take, hlen]
    omega
  have h2 : (b.drop 16).length = 16 := by
    rw [List.length_drop, hlen]
  have h3 : (b.drop 16).take 16 = b.drop 16 :=
    List.take_of_length_le (by rw [h2])
  constructor
  · have hr := natToLeBytes_leBytesToBigint (b.take 16)
      (fun x hx => hbound x (List.take_subset _ _ hx))
    rw [h1] at hr
    exact hr
  · rw [h3]
    have hr := natToLeBytes_leBytesToBigint (b.drop 16)
      (fun x hx => hbound x (List.drop_subset _ _ hx))
    rw [h2] at hr
    exact hr

/-- Base58 round trip: re-encoding any successfully decoded byte string
yields the original string. -/
theorem encodeB58_decodeB58 {s : List Char} {b : List Nat}
    (h : decodeB58 s = some b) : encodeB58 b = s := by
  unfold decodeB58 at h
  split at h
  · exact Option.noConfusion h
  · rename_i ds hds
    injection h with h2
    subst h2
    obtain ⟨hs, hlt⟩ := b58Vals_some hds
    obtain ⟨z, htake⟩ : ∃ z, ds.takeWhile (fun d => d == 0) = List.replicate z 0 := by
      refine ⟨(ds.takeWhile (fun d => d == 0)).length, ?_⟩
      apply List.eq_replicate_of_mem
      intro e he
      have hp := @List.mem_takeWhile_imp Nat (fun d => d == 0) ds e he
      simpa using hp
    rw [htake, List.length_replicate]
    have hds_split : ds = List.replicate z 0 ++ ds.dropWhile (fun d => d == 0) := by
      rw [← htake]
      exact (List.takeWhile_append_dropWhile _ _).symm
    have hval : digitsVal ds = digitsVal (ds.dropWhile (fun d => d == 0)) := by
      show baseVal 56 ds = baseVal 56 _
      conv => lhs; rw [hds_split]
      rw [baseVal_append, baseVal_replicate_zero]
      ring
    cases htc : ds.dropWhile (fun d => d == 0) with
    | nil =>
        have hn : digitsVal ds = 0 := by
          rw [hval, htc]
          rfl
        rw [hn]
        have hbytes : natBytesBE 0 = [] := rfl
        rw [hbytes, List.append_nil]
        unfold encodeB58
        rw [List.takeWhile_replicate, if_pos (show ((0 : Nat) == 0) = true from rfl),
            List.length_replicate]
        have hb0 : bytesValBE (List.replicate z 0) = 0 := baseVal_replicate_zero 254 z
        rw [hb0]
        have hd0 : natDigits58 0 = [] := rfl
        rw [hd0]
        rw [hs, hds_split, htc, List.append_nil, List.map_replicate]
        simp only [List.map_nil, List.append_nil]
        rfl
    | cons d0 t0 =>
        have hd0 : d0 ≠ 0 := by
          have hw := List.head?_dropWhile_not (fun d => d == 0) ds
          rw [htc] at hw
          simp only [List.head?_cons] at hw
          intro hcontra
          rw [hcontra] at hw
          simp at hw
        have hpos : 0 < digitsVal (ds.dropWhile (fun d => d == 0)) := by
          rw [htc]
          exact baseVal_pos 56 d0 t0 hd0
        have hnpos : digitsVal ds ≠ 0 := by
          rw [hval]
          omega
        obtain ⟨h0, rest, hbe, hh0⟩ := natBaseDigits_head 254 (digitsVal ds) hnpos
        have hbe2 : natBytesBE (digitsVal ds) = h0 :: rest := hbe
        unfold encodeB58
        have htw : (List.replicate z 0 ++ natBytesBE (digitsVal ds)).takeWhile
            (fun x => x == 0) = List.replicate z 0 := by
          rw [List.takeWhile_append_of_pos
                (fun a ha => by rw [List.eq_of_mem_replicate ha]; rfl),
              hbe2, List.takeWhile_cons_of_neg (by simp [hh0]), List.append_nil]
        rw [htw, List.length_replicate]
        have hbv : bytesValBE (List.replicate z 0 ++ natBytesBE (digitsVal ds))
            = digitsVal ds := by
          show baseVal 254 _ = _
          rw [baseVal_append, baseVal_replicate_zero]
          have : baseVal 254 (natBytesBE (digitsVal ds)) = digitsVal ds :=
            natBaseDigits_val 254 (digitsVal ds)
          omega
        rw [hbv]
        have hcanon : natDigits58 (digitsVal ds) = ds.dropWhile (fun d => d == 0) := by
          show natBaseDigits 56 (digitsVal ds) = _
          rw [hval]
          apply natBaseDigits_of_canonical
          · intro e he
            exact hlt e ((List.dropWhile_sublist _).subset he)
          · rw [htc]
            simp [hd0]
        rw [hcanon]
        rw [hs]
        conv => rhs; rw [hds_split]
        rw [List.map_append, List.map_replicate]
        rfl

/-! ### Claim C10 -/

/-- C10: rebuilding a 32-byte base58 public key from its two little-endian
128-bit limbs is a round trip: whenever `recipientOwnerToLimbsLE` succeeds,
`limbsToRecipientOwnerBase58` of the limbs returns the original string; and
`recipientOwnerToLimbsLE` fails (throws) exactly on inputs that do not
decode to 32 bytes. -/
theorem recipientOwner_limbs_roundtrip :
    (∀ (s : List Char) (lo hi : Nat),
        recipientOwnerToLimbsLE s = some (lo, hi) →
        limbsToRecipientOwnerBase58 lo hi = s) ∧
    (∀ s : List Char,
        (∀ raw, decodeB58 s = some raw → raw.length ≠ 32) →
        recipientOwnerToLimbsLE s = none) := by
  constructor
  · intro s lo hi h
    unfold recipientOwnerToLimbsLE at h
    split at h
    · exact Option.noConfusion h
    · rename_i raw hraw
      split at h
      · rename_i hlen
        injection h with h2
        injection h2 with hlo hhi
        obtain ⟨hr1, hr2⟩ := decodeB58_length_32 hraw hlen
        unfold limbsToRecipientOwnerBase58
        rw [← hlo, ← hhi, hr1, hr2, List.take_append_drop]
        exact encodeB58_decodeB58 hraw
      · exact Option.noConfusion h
  · intro s hbad
    unfold recipientOwnerToLimbsLE
    split
    · rfl
    · rename_i raw hraw
      rw [if_neg (hbad raw hraw)]

theorem recipientOwner_limbs_roundtrip_witness :
    limbsToRecipientOwnerBase58 0 0 = List.replicate 32 '1' ∧
    recipientOwnerToLimbsLE [Char.ofNat 48] = none :=
  ⟨recipientOwner_limbs_roundtrip.1 (List.replicate 32 '1') 0 0 (by rfl),
   recipientOwner_limbs_roundtrip.2 [Char.ofNat 48]
     (fun raw hr => Option.noConfusion
       ((show decodeB58 [Char.ofNat 48] = none from rfl) ▸ hr))⟩

end CipherPay
